import Mathlib

/-!
Verification of the navidrome scan-and-index engine specification against the
source of `scanner/mapping.go`, the artist repository (persistence layer) and
`db/migration/migration.go`.

Go strings are byte sequences (UTF-8).  They are embedded as `List Nat`, each
element one byte.  All concrete strings appearing in this development are
ASCII, so `bytes` below (codepoints of the characters) coincides with the
UTF-8 bytes.
-/

namespace Navidrome

/-- Byte list of an ASCII string literal (codepoint of each character). -/
def bytes (s : String) : List Nat := s.toList.map Char.toNat

/-- ASCII case folding of one byte.  Go's `strings.ToLower` is Unicode-aware;
it agrees with this byte-wise map on ASCII input, which is all this
development uses. -/
def asciiLowerByte (c : Nat) : Nat := if 65 ≤ c ∧ c ≤ 90 then c + 32 else c

/-- Embedding of `strings.ToLower` (ASCII fragment). -/
def toLowerBytes (s : List Nat) : List Nat := s.map asciiLowerByte

/-- ASCII whitespace bytes (space, tab, LF, VT, FF, CR), the single-byte part
of Go's `unicode.IsSpace`. -/
def isAsciiSpace (c : Nat) : Bool := c = 32 || c = 9 || c = 10 || c = 11 || c = 12 || c = 13

/-- Embedding of `strings.TrimSpace` (ASCII fragment). -/
def trimSpaceBytes (s : List Nat) : List Nat :=
  ((s.dropWhile isAsciiSpace).reverse.dropWhile isAsciiSpace).reverse

/-- Embedding of `strings.TrimPrefix`: drop `p` from the front of `s` when it
is there, otherwise return `s` unchanged. -/
def dropPref (s p : List Nat) : List Nat :=
  if p.isPrefixOf s then s.drop p.length else s

/-- Embedding of `strings.TrimSuffix`: drop `e` from the end of `s` when it is
there, otherwise return `s` unchanged. -/
def dropSuff (s e : List Nat) : List Nat :=
  if e.isSuffixOf s then s.take (s.length - e.length) else s

/-- Recursion behind `splitOnByte`: the piece before the first separator and
the list of later pieces. -/
def splitOnByteAux (sep : Nat) : List Nat → List Nat × List (List Nat)
  | [] => ([], [])
  | c :: rest =>
    let r := splitOnByteAux sep rest
    if c = sep then ([], r.1 :: r.2)
    else (c :: r.1, r.2)

/-- Embedding of `strings.Split` with a one-byte separator: Go returns `[""]`
on the empty string and otherwise the pieces between separators. -/
def splitOnByte (sep : Nat) (s : List Nat) : List (List Nat) :=
  (splitOnByteAux sep s).1 :: (splitOnByteAux sep s).2

/-- Embedding of `strings.Join` with a one-byte separator. -/
def joinWith (sep : Nat) : List (List Nat) → List Nat
  | [] => []
  | [x] => x
  | x :: xs => x ++ sep :: joinWith sep xs

/-- Backward scan for `filepath.Ext`: walk the reversed path until a dot
(return the extension) or a path separator / start of string (no extension). -/
def extRev (acc : List Nat) : List Nat → List Nat
  | [] => []
  | c :: rest =>
    if c = 46 then c :: acc
    else if c = 47 then []
    else extRev (c :: acc) rest

/-- Embedding of `filepath.Ext`: the suffix beginning at the final dot in the
final path element, empty when that element has no dot. -/
def filepathExt (s : List Nat) : List Nat := extRev [] s.reverse

/-! ## MD5 (`crypto/md5`)

Machine words are `Nat` reduced modulo `2 ^ 32` after every operation.
Bitwise complement of a word `x < 2 ^ 32` is `x ^^^ 0xffffffff`. -/

/-- Left-rotation of a 32-bit word. -/
def rotl32 (x s : Nat) : Nat :=
  (((x <<< s) % 4294967296) + (x >>> (32 - s))) % 4294967296

/-- The 64 MD5 sine-derived round constants. -/
def md5K : List Nat :=
  [0xd76aa478, 0xe8c7b756, 0x242070db, 0xc1bdceee,
   0xf57c0faf, 0x4787c62a, 0xa8304613, 0xfd469501,
   0x698098d8, 0x8b44f7af, 0xffff5bb1, 0x895cd7be,
   0x6b901122, 0xfd987193, 0xa679438e, 0x49b40821,
   0xf61e2562, 0xc040b340, 0x265e5a51, 0xe9b6c7aa,
   0xd62f105d, 0x02441453, 0xd8a1e681, 0xe7d3fbc8,
   0x21e1cde6, 0xc33707d6, 0xf4d50d87, 0x455a14ed,
   0xa9e3e905, 0xfcefa3f8, 0x676f02d9, 0x8d2a4c8a,
   0xfffa3942, 0x8771f681, 0x6d9d6122, 0xfde5380c,
   0xa4beea44, 0x4bdecfa9, 0xf6bb4b60, 0xbebfbc70,
   0x289b7ec6, 0xeaa127fa, 0xd4ef3085, 0x04881d05,
   0xd9d4d039, 0xe6db99e5, 0x1fa27cf8, 0xc4ac5665,
   0xf4292244, 0x432aff97, 0xab9423a7, 0xfc93a039,
   0x655b59c3, 0x8f0ccc92, 0xffeff47d, 0x85845dd1,
   0x6fa87e4f, 0xfe2ce6e0, 0xa3014314, 0x4e0811a1,
   0xf7537e82, 0xbd3af235, 0x2ad7d2bb, 0xeb86d391]

/-- The per-round left-rotation amounts. -/
def md5S : List Nat :=
  [7, 12, 17, 22, 7, 12, 17, 22, 7, 12, 17, 22, 7, 12, 17, 22,
   5, 9, 14, 20, 5, 9, 14, 20, 5, 9, 14, 20, 5, 9, 14, 20,
   4, 11, 16, 23, 4, 11, 16, 23, 4, 11, 16, 23, 4, 11, 16, 23,
   6, 10, 15, 21, 6, 10, 15, 21, 6, 10, 15, 21, 6, 10, 15, 21]

/-- The four 32-bit chaining registers of MD5. -/
structure MD5State where
  a : Nat
  b : Nat
  c : Nat
  d : Nat
deriving DecidableEq

/-- Round mixing function, selected by the round index. -/
def md5F (i b c d : Nat) : Nat :=
  if i < 16 then (b &&& c) ||| ((b ^^^ 0xffffffff) &&& d)
  else if i < 32 then (d &&& b) ||| ((d ^^^ 0xffffffff) &&& c)
  else if i < 48 then b ^^^ c ^^^ d
  else c ^^^ (b ||| (d ^^^ 0xffffffff))

/-- Message-word index used in round `i`. -/
def md5G (i : Nat) : Nat :=
  if i < 16 then i
  else if i < 32 then (5 * i + 1) % 16
  else if i < 48 then (3 * i + 5) % 16
  else (7 * i) % 16

/-- One of the 64 MD5 rounds over the message words `m` of the current block. -/
def md5Round (m : List Nat) (st : MD5State) (i : Nat) : MD5State :=
  let f := (md5F i st.b st.c st.d + st.a + md5K.getD i 0 + m.getD (md5G i) 0) % 4294967296
  ⟨st.d, (st.b + rotl32 f (md5S.getD i 0)) % 4294967296, st.b, st.c⟩

/-- Process one 64-byte block: decode 16 little-endian words, run 64 rounds,
add the result into the chaining state. -/
def md5ProcessBlock (st : MD5State) (block : List Nat) : MD5State :=
  let m := (List.range 16).map fun j =>
    block.getD (4 * j) 0 + 256 * block.getD (4 * j + 1) 0 +
      65536 * block.getD (4 * j + 2) 0 + 16777216 * block.getD (4 * j + 3) 0
  let r := (List.range 64).foldl (md5Round m) st
  ⟨(st.a + r.a) % 4294967296, (st.b + r.b) % 4294967296,
   (st.c + r.c) % 4294967296, (st.d + r.d) % 4294967296⟩

/-- Fold `md5ProcessBlock` over the 64-byte blocks of a padded message; the
first argument is the number of blocks (the padded length is always a
multiple of 64, so the Go loop performs exactly `length / 64` iterations). -/
def md5Blocks : Nat → MD5State → List Nat → MD5State
  | 0, st, _ => st
  | n + 1, st, l => md5Blocks n (md5ProcessBlock st (l.take 64)) (l.drop 64)

/-- Little-endian bytes of a 32-bit word. -/
def leBytes4 (n : Nat) : List Nat := (List.range 4).map fun i => (n >>> (8 * i)) % 256

/-- Little-endian bytes of a 64-bit word. -/
def leBytes8 (n : Nat) : List Nat := (List.range 8).map fun i => (n >>> (8 * i)) % 256

/-- MD5 padding: a `0x80` byte, zeros to 56 mod 64, then the bit length as a
little-endian 64-bit word. -/
def md5Pad (msg : List Nat) : List Nat :=
  msg ++ [128] ++ List.replicate ((119 - (msg.length % 64)) % 64) 0 ++
    leBytes8 ((msg.length * 8) % 18446744073709551616)

/-- Embedding of `md5.Sum`: the 16 digest bytes of a message. -/
def md5Sum (msg : List Nat) : List Nat :=
  let padded := md5Pad msg
  let st := md5Blocks (padded.length / 64) ⟨0x67452301, 0xefcdab89, 0x98badcfe, 0x10325476⟩ padded
  leBytes4 st.a ++ leBytes4 st.b ++ leBytes4 st.c ++ leBytes4 st.d

/-- Lowercase hexadecimal digit of a value below 16. -/
def hexDigit (n : Nat) : Nat := if n < 10 then 48 + n else 87 + n

/-- The two lowercase hexadecimal characters of one byte (bytes produced by
`md5Sum` are below 256 by construction; the extra `% 16` only makes the
definition total). -/
def hexByte (b : Nat) : List Nat := [hexDigit (b / 16 % 16), hexDigit (b % 16)]

/-- Embedding of `fmt.Sprintf` with the `%x` verb on a byte array: each byte
as two lowercase hexadecimal digits. -/
def hexString (l : List Nat) : List Nat := (l.map hexByte).flatten

/-! ## Percent encoding (`net/url`)

Embedding of Go's `url.QueryEscape` and `url.QueryUnescape`
(`shouldEscape`/`escape`/`unescape` in query-component mode). -/

/-- Bytes `url.shouldEscape` leaves unescaped in a query component:
alphanumerics and `-`, `_`, `.`, `~`. -/
def isUnreservedQuery (c : Nat) : Bool :=
  (48 ≤ c && c ≤ 57) || (65 ≤ c && c ≤ 90) || (97 ≤ c && c ≤ 122) ||
    c = 45 || c = 95 || c = 46 || c = 126

/-- Uppercase hexadecimal digit, as produced by `url.escape`. -/
def hexDigitUpper (n : Nat) : Nat := if n < 10 then 48 + n else 55 + n

/-- Embedding of `url.QueryEscape`: unreserved bytes pass through, space
becomes `+`, everything else becomes a `%XX` escape. -/
def queryEscape (s : List Nat) : List Nat :=
  (s.map fun c =>
    if isUnreservedQuery c then [c]
    else if c = 32 then [43]
    else [37, hexDigitUpper (c / 16 % 16), hexDigitUpper (c % 16)]).flatten

/-- Value of one hexadecimal character, `none` for a non-hex byte
(`url.ishex` and `url.unhex`). -/
def unhex (c : Nat) : Option Nat :=
  if 48 ≤ c ∧ c ≤ 57 then some (c - 48)
  else if 97 ≤ c ∧ c ≤ 102 then some (c - 87)
  else if 65 ≤ c ∧ c ≤ 70 then some (c - 55)
  else none

/-- Embedding of `url.QueryUnescape`: `%XX` escapes are decoded (an
incomplete or non-hex escape is an error, yielding `none`), `+` becomes a
space, everything else passes through. -/
def queryUnescapeCore : List Nat → Option (List Nat)
  | [] => some []
  | c :: rest =>
    if c = 37 then
      match rest with
      | h :: l :: rest2 =>
        match unhex h, unhex l with
        | some hi, some lo => (queryUnescapeCore rest2).map ((16 * hi + lo) :: ·)
        | _, _ => none
      | _ => none
    else if c = 43 then (queryUnescapeCore rest).map ((32 : Nat) :: ·)
    else (queryUnescapeCore rest).map (c :: ·)

/-- Embedding of `url.QueryUnescape` with the error discarded, as in
`name, _ := url.QueryUnescape(fields[1])`: the empty string on error. -/
def queryUnescapeLenient (s : List Nat) : List Nat := (queryUnescapeCore s).getD []

/-! ## Entity mapper (`scanner/mapping.go`) -/

/-- Modelled from the spec: the fixed `consts.VariousArtists` constant
("Various Artists"); the `consts` package is not part of the provided
sources. -/
def VariousArtists : List Nat := bytes "Various Artists"

/-- Modelled from the spec: the fixed `consts.UnknownArtist` constant
("Unknown Artist"); the `consts` package is not part of the provided
sources. -/
def UnknownArtist : List Nat := bytes "Unknown Artist"

/-- The value of `os.PathSeparator` on the target platform: `/`. -/
def pathSeparator : Nat := 47

/-- Modelled from the spec: the external `sanitize.Accents` strips
diacritics, transliterating accented characters to ASCII; it is the identity
on ASCII strings, which is all this development evaluates it on. -/
def accents (s : List Nat) : List Nat := s

/-- Modelled from the spec: the configured set of leading articles,
for example "The ", "A ", "An " (`utils.NoArticle` and its configuration
are not part of the provided sources). -/
def articles : List (List Nat) := [bytes "The", bytes "A", bytes "An"]

/-- Modelled from the spec: `utils.NoArticle` strips the first configured
leading article (followed by a space) from the front of the name,
matching case-insensitively. -/
def noArticle (s : List Nat) : List Nat :=
  match articles.find? (fun a => (toLowerBytes (a ++ [32])).isPrefixOf (toLowerBytes s)) with
  | some a => s.drop (a.length + 1)
  | none => s

/-- Embedding of `sanitizeFieldForSorting`: accent stripping, whitespace
trim, article removal.  Note: no case folding happens here. -/
def sanitizeFieldForSorting (originalValue : List Nat) : List Nat :=
  noArticle (trimSpaceBytes (accents originalValue))

/-- The raw tag fields of one audio file, as delivered by the external tag
reader (`metadata.Metadata`).  Only the accessors used by the mapper
functions under verification are modelled; the remaining fields of
`toMediaFile` are direct copies from the metadata and are not referenced by
any claim. -/
structure Metadata where
  title : List Nat
  artist : List Nat
  album : List Nat
  albumArtist : List Nat
  compilation : Bool
  filePath : List Nat
deriving DecidableEq

/-- Embedding of `mediaFileMapper.mapTrackTitle`: an empty title tag falls
back to the file path with the mapper's root folder (plus separator)
trimmed from the front and the extension trimmed from the end. -/
def mapTrackTitle (rootFolder : List Nat) (md : Metadata) : List Nat :=
  if md.title = [] then
    let s := dropPref md.filePath (rootFolder ++ [pathSeparator])
    let e := filepathExt s
    dropSuff s e
  else md.title

/-- Embedding of `mediaFileMapper.mapAlbumArtistName`: compilation wins,
then the album-artist tag, then the artist tag, then the unknown-artist
constant. -/
def mapAlbumArtistName (md : Metadata) : List Nat :=
  if md.compilation then VariousArtists
  else if md.albumArtist ≠ [] then md.albumArtist
  else if md.artist ≠ [] then md.artist
  else UnknownArtist

/-- Embedding of `mediaFileMapper.mapArtistName`. -/
def mapArtistName (md : Metadata) : List Nat :=
  if md.artist ≠ [] then md.artist else UnknownArtist

/-- Embedding of `mediaFileMapper.mapAlbumName`. -/
def mapAlbumName (md : Metadata) : List Nat :=
  if md.album = [] then bytes "[Unknown Album]" else md.album

/-- Embedding of `mediaFileMapper.trackID`: hex MD5 of the file path. -/
def trackID (md : Metadata) : List Nat := hexString (md5Sum md.filePath)

/-- Embedding of `mediaFileMapper.albumID`: hex MD5 of the lower-cased
"albumArtistName\albumName" string (byte 92 is the backslash). -/
def albumID (md : Metadata) : List Nat :=
  hexString (md5Sum (toLowerBytes (mapAlbumArtistName md ++ [92] ++ mapAlbumName md)))

/-- Embedding of `mediaFileMapper.artistID`: hex MD5 of the lower-cased
resolved artist name. -/
def artistID (md : Metadata) : List Nat :=
  hexString (md5Sum (toLowerBytes (mapArtistName md)))

/-- Embedding of `mediaFileMapper.albumArtistID`: hex MD5 of the lower-cased
resolved album-artist name. -/
def albumArtistID (md : Metadata) : List Nat :=
  hexString (md5Sum (toLowerBytes (mapAlbumArtistName md)))

/-- The fields of `model.MediaFile` that `toMediaFile` computes (as opposed
to copying verbatim from the metadata or passing through the free-text
sanitizer); only these are referenced by claims. -/
structure MediaFile where
  id : List Nat
  title : List Nat
  album : List Nat
  albumID : List Nat
  artistID : List Nat
  artist : List Nat
  albumArtistID : List Nat
  albumArtist : List Nat
  compilation : Bool
  path : List Nat
  orderAlbumName : List Nat
  orderArtistName : List Nat
  orderAlbumArtistName : List Nat
deriving DecidableEq

/-- Embedding of `mediaFileMapper.toMediaFile`, restricted to the computed
fields above.  The mapper's root folder is passed explicitly, standing for
the `mediaFileMapper` receiver. -/
def toMediaFile (rootFolder : List Nat) (md : Metadata) : MediaFile :=
  let album := mapAlbumName md
  let artist := mapArtistName md
  let albumArtist := mapAlbumArtistName md
  { id := trackID md
    title := mapTrackTitle rootFolder md
    album := album
    albumID := albumID md
    artistID := artistID md
    artist := artist
    albumArtistID := albumArtistID md
    albumArtist := albumArtist
    compilation := md.compilation
    path := md.filePath
    orderAlbumName := sanitizeFieldForSorting album
    orderArtistName := sanitizeFieldForSorting artist
    orderAlbumArtistName := sanitizeFieldForSorting albumArtist }

/-! ## Artist repository (persistence layer) -/

/-- One entry of an artist's similar-artists relation: the identifier and
the display name (`model.Artist`'s `ID` and `Name`; the nested similar lists
of entries are always empty in both directions of the encoding). -/
structure SimilarArtist where
  id : List Nat
  name : List Nat
deriving DecidableEq

/-- Encoding half of `artistRepository.fromModel`: each similar artist
becomes `<id>:<percent-encoded name>` and the entries are joined with
`;` (bytes 58 and 59). -/
def fromModelSimilar (sa : List SimilarArtist) : List Nat :=
  joinWith 59 (sa.map fun s => s.id ++ 58 :: queryEscape s.name)

/-- The per-entry step of `artistRepository.toModel`: split on every colon;
keep the entry only when that yields exactly two fields, percent-decoding
the second (decode errors are discarded, leaving an empty name). -/
def decodeEntry (entry : List Nat) : Option SimilarArtist :=
  match splitOnByte 58 entry with
  | [i, nm] => some ⟨i, queryUnescapeLenient nm⟩
  | _ => none

/-- Decoding half of `artistRepository.toModel`: split the stored string on
semicolons and keep the well-formed entries. -/
def toModelSimilar (stored : List Nat) : List SimilarArtist :=
  (splitOnByte 59 stored).filterMap decodeEntry

/-- The fields of `model.Artist` used by the index builder. -/
structure Artist where
  id : List Nat
  name : List Nat
deriving DecidableEq

/-- The per-entry test of `artistRepository.getIndexKey`: the artist's name
with the leading article removed and lower-cased starts with the group
entry's lower-cased prefix. -/
def groupMatches (a : Artist) (kv : List Nat × List Nat) : Bool :=
  (toLowerBytes kv.1).isPrefixOf (toLowerBytes (noArticle a.name))

/-- Embedding of `artistRepository.getIndexKey` for ONE iteration order of
the configured group map.  The Go code ranges over a `map[string]string`
(`for k, v := range r.indexGroups`), whose iteration order is unspecified
and may differ between invocations; the embedding therefore takes the order
as an explicit list argument, and the theorems about it quantify over the
permutations of that list rather than relying on any fixed order.  Under
the given order, the first matching entry's bucket key is returned and
`"#"` (byte 35) when no entry matches. -/
def getIndexKey (indexGroups : List (List Nat × List Nat)) (a : Artist) : List Nat :=
  match indexGroups.find? (groupMatches a) with
  | some kv => kv.2
  | none => [35]

/-- One bucket of the artist index (`model.ArtistIndex`). -/
structure ArtistIndex where
  id : List Nat
  artists : List Artist
deriving DecidableEq

/-- Append artist `a` to the bucket keyed `key`, creating the bucket at the
end when absent (the association-list image of `fullIdx[ax]` updates in
`GetIndex`). -/
def upsertIndex (key : List Nat) (a : Artist) : List ArtistIndex → List ArtistIndex
  | [] => [⟨key, [a]⟩]
  | idx :: rest =>
    if idx.id = key then ⟨idx.id, idx.artists ++ [a]⟩ :: rest
    else idx :: upsertIndex key a rest

/-- Byte-lexicographic order on byte strings, Go's `<` on `string` made
non-strict (the comparator of the final `sort.Slice`). -/
def bytesLe : List Nat → List Nat → Bool
  | [], _ => true
  | _ :: _, [] => false
  | a :: as, b :: bs => if a = b then bytesLe as bs else decide (a < b)

/-- Insert one bucket into a key-sorted bucket list. -/
def insertSortedIdx (x : ArtistIndex) : List ArtistIndex → List ArtistIndex
  | [] => [x]
  | y :: ys => if bytesLe x.id y.id then x :: y :: ys else y :: insertSortedIdx x ys

/-- Sort buckets by key (the `sort.Slice(result, result[i].ID < result[j].ID)`
step; bucket keys are distinct, so the order is fully determined). -/
def sortIdx : List ArtistIndex → List ArtistIndex
  | [] => []
  | x :: xs => insertSortedIdx x (sortIdx xs)

/-- Embedding of `artistRepository.GetIndex` as a function of the configured
index groups (in one iteration order, see `getIndexKey`) and the stored
artist rows (the `GetAll` result, already sorted by order name): group the
rows by index key, then sort the buckets by key.  The iteration over the
`fullIdx` map when assembling the result is neutralized by that final sort,
since bucket keys are distinct; the group-map order is not, and stays an
explicit argument. -/
def getIndex (indexGroups : List (List Nat × List Nat)) (rows : List Artist) :
    List ArtistIndex :=
  sortIdx (rows.foldl (fun acc a => upsertIndex (getIndexKey indexGroups a) a acc) [])

/-- Chunking recursion, structural in a fuel argument so that it reduces by
computation alone; every chunk consumes at least one element, so fuel equal
to the list length is always enough. -/
def breakUpFuel {α : Type} : Nat → List α → Nat → List (List α)
  | 0, _, _ => []
  | _ + 1, [], _ => []
  | _ + 1, _ :: _, 0 => []
  | fuel + 1, c :: cs, n + 1 =>
    (c :: cs).take (n + 1) :: breakUpFuel fuel ((c :: cs).drop (n + 1)) (n + 1)

/-- Modelled from the spec: `utils.BreakUpStringSlice` (not in the provided
sources) cuts an identifier list into fixed-size chunks; it is defined here
for a positive chunk size (the caller always passes 100). -/
def breakUpSlice {α : Type} (l : List α) (n : Nat) : List (List α) :=
  breakUpFuel l.length l n

/-- The chunk loop of `artistRepository.Refresh`: run the per-chunk refresh
over each chunk in order, stopping at (and returning) the first error.  The
store state `σ` threads through so that writes already performed survive a
later failure. -/
def refreshLoop {σ ε : Type} (f : List (List Nat) → σ → σ × Option ε) :
    List (List (List Nat)) → σ → σ × Option ε
  | [], s => (s, none)
  | c :: cs, s =>
    match f c s with
    | (s1, some e) => (s1, some e)
    | (s1, none) => refreshLoop f cs s1

/-- Embedding of `artistRepository.Refresh`: chunk the identifiers by 100 and
run the loop.  The per-chunk `refresh` (an aggregate query plus `Put` calls
against the external store) is the abstract transition `f`. -/
def Refresh {σ ε : Type} (f : List (List Nat) → σ → σ × Option ε)
    (ids : List (List Nat)) (s : σ) : σ × Option ε :=
  refreshLoop f (breakUpSlice ids 100) s

/-! ## Migration run-once guard (`db/migration/migration.go`) -/

/-- The process-wide `sync.Once` guarding `isDBInitialized`. -/
structure OnceState where
  done : Bool
deriving DecidableEq

/-- The part of the database visible to `isDBInitialized`: whether the
property table holds the initial-setup flag row. -/
structure DBState where
  hasInitialSetupFlag : Bool
deriving DecidableEq

/-- Result of one `isDBInitialized` call: the returned boolean, the updated
guard state, and whether the call queried the database. -/
structure InitCheckResult where
  initialized : Bool
  once : OnceState
  queried : Bool
deriving DecidableEq

/-- Embedding of `isDBInitialized`: the named return `initialized` starts at
`false`; `once.Do` runs the query only when the guard has not fired yet, and
a skipped body leaves the default `false` in place. -/
def isDBInitialized (db : DBState) (st : OnceState) : InitCheckResult :=
  if st.done then ⟨false, st, false⟩
  else ⟨db.hasInitialSetupFlag, ⟨true⟩, true⟩

/-! ## Definitions taken from the claims' wording (for comparison with the
source embeddings above) -/

/-- The claims' reading of the title fallback: the base name of the path
(final path element) with the extension stripped. -/
def claimBaseNameNoExt (path : List Nat) : List Nat :=
  let base := (path.reverse.takeWhile (fun c => c ≠ 47)).reverse
  dropSuff base (filepathExt base)

/-- The claims' reading of the per-entry decode: split on the FIRST colon
only, discarding entries with no colon at all. -/
def claimDecodeEntry (entry : List Nat) : Option SimilarArtist :=
  if 58 ∈ entry then
    some ⟨entry.takeWhile (fun c => c ≠ 58),
      queryUnescapeLenient ((entry.dropWhile (fun c => c ≠ 58)).drop 1)⟩
  else none

/-- Decode as described by the claims: split on semicolons, then each entry
on its first colon. -/
def claimToModelSimilar (stored : List Nat) : List SimilarArtist :=
  (splitOnByte 59 stored).filterMap claimDecodeEntry

/-- Specification-side characterization of the code's decode: an entry is
kept exactly when it contains exactly one colon; the identifier is the part
before it and the name the decoded part after it. -/
def specDecodeEntry (entry : List Nat) : Option SimilarArtist :=
  if entry.count 58 = 1 then
    some ⟨entry.takeWhile (fun c => c ≠ 58),
      queryUnescapeLenient ((entry.dropWhile (fun c => c ≠ 58)).drop 1)⟩
  else none

/-- Decode by the exactly-one-colon characterization. -/
def specToModelSimilar (stored : List Nat) : List SimilarArtist :=
  (splitOnByte 59 stored).filterMap specDecodeEntry

/-- A lowercase hexadecimal character: a decimal digit or `a`–`f`. -/
def isLowerHexChar (c : Nat) : Bool := (48 ≤ c && c ≤ 57) || (97 ≤ c && c ≤ 102)

/-- Modelled from the spec: the default index configuration groups artists
under the single letters A–Z (bucket key equal to the letter). -/
def letterIndexGroups : List (List Nat × List Nat) :=
  (List.range 26).map fun i => ([65 + i], [65 + i])

/-! ## General lemmas about the string embeddings -/

theorem toLowerBytes_append (a b : List Nat) :
    toLowerBytes (a ++ b) = toLowerBytes a ++ toLowerBytes b :=
  List.map_append asciiLowerByte a b

theorem toLowerBytes_ne_nil {x : List Nat} {v : List Nat}
    (h : toLowerBytes x = v) (hv : v ≠ []) : x ≠ [] := by
  intro hx
  rw [hx] at h
  exact hv h.symm

/-! ## Claim theorems -/

/-- C10: only the first `isDBInitialized` call queries the database; every
later call returns `false` unconditionally — even when the initial-setup
flag is present — because the `sync.Once` guard does not retain the value
computed by the first call. -/
theorem c10_run_once_guard_loses_result (db1 db2 : DBState) :
    (isDBInitialized db1 ⟨false⟩).queried = true ∧
    (isDBInitialized db1 ⟨false⟩).initialized = db1.hasInitialSetupFlag ∧
    (isDBInitialized db2 (isDBInitialized db1 ⟨false⟩).once).queried = false ∧
    (isDBInitialized db2 (isDBInitialized db1 ⟨false⟩).once).initialized = false := by
  simp [isDBInitialized]

/-- C3: with the compilation flag set, the album-artist name resolves to the
fixed "Various Artists" constant and the album-artist identifier to the
digest of its lower-casing, regardless of the albumArtist and artist tags. -/
theorem c3_compilation_routing (root : List Nat) (md : Metadata)
    (h : md.compilation = true) :
    (toMediaFile root md).albumArtist = bytes "Various Artists" ∧
    (toMediaFile root md).albumArtistID =
      hexString (md5Sum (toLowerBytes (bytes "Various Artists"))) := by
  constructor
  · show mapAlbumArtistName md = bytes "Various Artists"
    simp [mapAlbumArtistName, h, VariousArtists]
  · show albumArtistID md = hexString (md5Sum (toLowerBytes (bytes "Various Artists")))
    simp [albumArtistID, mapAlbumArtistName, h, VariousArtists]

/-- Witness for C3 at the claim's own instance: compilation set, empty
albumArtist tag, artist tag "Various Performer". -/
theorem c3_witness :
    (⟨bytes "t", bytes "Various Performer", bytes "al", [], true,
        bytes "/m/f.mp3"⟩ : Metadata).compilation = true ∧
    ((toMediaFile (bytes "/m")
        ⟨bytes "t", bytes "Various Performer", bytes "al", [], true,
          bytes "/m/f.mp3"⟩).albumArtist = bytes "Various Artists" ∧
      (toMediaFile (bytes "/m")
        ⟨bytes "t", bytes "Various Performer", bytes "al", [], true,
          bytes "/m/f.mp3"⟩).albumArtistID =
        hexString (md5Sum (toLowerBytes (bytes "Various Artists")))) :=
  ⟨rfl, c3_compilation_routing (bytes "/m") _ rfl⟩

/-- Counterexample to C1 as stated: under root folder `/music`, the file
`/music/Unknown/07 track.flac` with empty tags gets title
"Unknown/07 track" — the root-relative path minus extension — which is
neither the base name minus extension nor "07 track". -/
theorem c1_counterexample :
    (toMediaFile (bytes "/music")
        ⟨[], [], [], [], false, bytes "/music/Unknown/07 track.flac"⟩).title =
      bytes "Unknown/07 track" ∧
    claimBaseNameNoExt (bytes "/music/Unknown/07 track.flac") = bytes "07 track" ∧
    (toMediaFile (bytes "/music")
        ⟨[], [], [], [], false, bytes "/music/Unknown/07 track.flac"⟩).title ≠
      bytes "07 track" := by
  decide

/-- C1 (amended): with empty title, artist, and album tags, `toMediaFile`
falls back to artist "Unknown Artist" and album "[Unknown Album]", and the
title becomes the file path with the mapper's root-folder prefix (plus
separator) removed and the extension stripped — which is "07 track" for the
path `/music/Unknown/07 track.flac` exactly when the root folder is
`/music/Unknown`. -/
theorem c1_fallback_totality (root : List Nat) (md : Metadata)
    (ht : md.title = []) (ha : md.artist = []) (hal : md.album = []) :
    (toMediaFile root md).artist = bytes "Unknown Artist" ∧
    (toMediaFile root md).album = bytes "[Unknown Album]" ∧
    (toMediaFile root md).title =
      dropSuff (dropPref md.filePath (root ++ [pathSeparator]))
        (filepathExt (dropPref md.filePath (root ++ [pathSeparator]))) ∧
    (root = bytes "/music/Unknown" →
      md.filePath = bytes "/music/Unknown/07 track.flac" →
      (toMediaFile root md).title = bytes "07 track") := by
  refine ⟨?_, ?_, ?_, ?_⟩
  · show mapArtistName md = bytes "Unknown Artist"
    simp [mapArtistName, ha, UnknownArtist]
  · show mapAlbumName md = bytes "[Unknown Album]"
    simp [mapAlbumName, hal]
  · show mapTrackTitle root md = _
    simp [mapTrackTitle, ht]
  · intro hr hp
    show mapTrackTitle root md = bytes "07 track"
    rw [mapTrackTitle, if_pos ht, hr, hp]
    decide

/-- Witness for C1 (amended) at the claim's instance: empty tags, root
folder `/music/Unknown`, path `/music/Unknown/07 track.flac`. -/
theorem c1_witness :
    (⟨[], [], [], [], false, bytes "/music/Unknown/07 track.flac"⟩ : Metadata).title = [] ∧
    (toMediaFile (bytes "/music/Unknown")
        ⟨[], [], [], [], false, bytes "/music/Unknown/07 track.flac"⟩).artist =
      bytes "Unknown Artist" ∧
    (toMediaFile (bytes "/music/Unknown")
        ⟨[], [], [], [], false, bytes "/music/Unknown/07 track.flac"⟩).album =
      bytes "[Unknown Album]" ∧
    (toMediaFile (bytes "/music/Unknown")
        ⟨[], [], [], [], false, bytes "/music/Unknown/07 track.flac"⟩).title =
      bytes "07 track" :=
  ⟨rfl,
    (c1_fallback_totality (bytes "/music/Unknown") _ rfl rfl rfl).1,
    (c1_fallback_totality (bytes "/music/Unknown") _ rfl rfl rfl).2.1,
    (c1_fallback_totality (bytes "/music/Unknown") _ rfl rfl rfl).2.2.2 rfl rfl⟩

/-- Counterexample to C6 as stated: `sanitizeFieldForSorting` strips the
article but keeps letter case, so "The Beatles" yields "Beatles", not
"beatles". -/
theorem c6_counterexample :
    sanitizeFieldForSorting (bytes "The Beatles") = bytes "Beatles" ∧
    sanitizeFieldForSorting (bytes "The Beatles") ≠ bytes "beatles" := by
  decide

/-- C6 (amended): for "The Beatles" the order form computed by
`sanitizeFieldForSorting` is "Beatles" — diacritics stripped, whitespace
trimmed, leading article removed, case preserved — and the index bucket
assigned to that artist is "B" (`getIndexKey` lower-cases separately when
bucketing). -/
theorem c6_sort_normalization :
    sanitizeFieldForSorting (bytes "The Beatles") = bytes "Beatles" ∧
    getIndexKey letterIndexGroups ⟨bytes "a1", bytes "The Beatles"⟩ = bytes "B" := by
  decide

theorem hexString_length (l : List Nat) : (hexString l).length = 2 * l.length := by
  induction l with
  | nil => rfl
  | cons c r ih =>
    simp only [hexString, List.map_cons, List.flatten_cons, List.length_append,
      List.length_cons] at ih ⊢
    simp only [hexByte, List.length_cons, List.length_nil]
    omega

theorem hexDigit_isLowerHex {x : Nat} (h : x < 16) :
    isLowerHexChar (hexDigit x) = true := by
  interval_cases x <;> decide

theorem hexString_chars (l : List Nat) :
    ∀ c ∈ hexString l, isLowerHexChar c = true := by
  intro c hc
  simp only [hexString, List.mem_flatten, List.mem_map] at hc
  obtain ⟨piece, ⟨b, _hb, rfl⟩, hcp⟩ := hc
  simp only [hexByte, List.mem_cons, List.mem_singleton, List.not_mem_nil] at hcp
  rcases hcp with rfl | rfl | h
  · exact hexDigit_isLowerHex (Nat.mod_lt _ (by omega))
  · exact hexDigit_isLowerHex (Nat.mod_lt _ (by omega))
  · cases h

theorem md5Sum_length (msg : List Nat) : (md5Sum msg).length = 16 := by
  simp [md5Sum, leBytes4]

theorem hexMd5_length (msg : List Nat) : (hexString (md5Sum msg)).length = 32 := by
  rw [hexString_length, md5Sum_length]

/-- C9: every identifier derived by the mapper — trackID, albumID, artistID,
albumArtistID — is a 32-character lowercase hexadecimal digest, and trackID
is a function of the file path alone, identical across computations. -/
theorem c9_identifier_format (root : List Nat) (md md' : Metadata) :
    ((toMediaFile root md).id).length = 32 ∧
    ((toMediaFile root md).albumID).length = 32 ∧
    ((toMediaFile root md).artistID).length = 32 ∧
    ((toMediaFile root md).albumArtistID).length = 32 ∧
    (∀ c ∈ (toMediaFile root md).id, isLowerHexChar c = true) ∧
    (∀ c ∈ (toMediaFile root md).albumID, isLowerHexChar c = true) ∧
    (∀ c ∈ (toMediaFile root md).artistID, isLowerHexChar c = true) ∧
    (∀ c ∈ (toMediaFile root md).albumArtistID, isLowerHexChar c = true) ∧
    (md.filePath = md'.filePath → (toMediaFile root md).id = (toMediaFile root md').id) := by
  refine ⟨hexMd5_length _, hexMd5_length _, hexMd5_length _, hexMd5_length _,
    hexString_chars _, hexString_chars _, hexString_chars _, hexString_chars _, ?_⟩
  intro h
  show trackID md = trackID md'
  rw [trackID, trackID, h]

/-- Witness for C9 at a concrete pair of raw-tag inputs sharing a file path
but differing in every tag. -/
theorem c9_witness :
    (⟨bytes "t", bytes "ar", bytes "al", bytes "aa", false,
        bytes "/m/x.mp3"⟩ : Metadata).filePath =
      (⟨[], [], [], [], true, bytes "/m/x.mp3"⟩ : Metadata).filePath ∧
    ((toMediaFile (bytes "/m")
        ⟨bytes "t", bytes "ar", bytes "al", bytes "aa", false,
          bytes "/m/x.mp3"⟩).id).length = 32 ∧
    (toMediaFile (bytes "/m")
        ⟨bytes "t", bytes "ar", bytes "al", bytes "aa", false,
          bytes "/m/x.mp3"⟩).id =
      (toMediaFile (bytes "/m") ⟨[], [], [], [], true, bytes "/m/x.mp3"⟩).id :=
  ⟨rfl,
    (c9_identifier_format (bytes "/m")
      ⟨bytes "t", bytes "ar", bytes "al", bytes "aa", false, bytes "/m/x.mp3"⟩
      ⟨[], [], [], [], true, bytes "/m/x.mp3"⟩).1,
    (c9_identifier_format (bytes "/m")
      ⟨bytes "t", bytes "ar", bytes "al", bytes "aa", false, bytes "/m/x.mp3"⟩
      ⟨[], [], [], [], true, bytes "/m/x.mp3"⟩).2.2.2.2.2.2.2.2 rfl⟩

set_option maxRecDepth 40000 in
/-- Counterexample to C2 as stated: two tracks with album-artist
"Pink Floyd" and album "The Wall" up to case, but different artist tags and
one with the compilation flag set, get different artistIDs and different
albumIDs — artistID depends on the artist tag and albumID on the
compilation flag, not on the album-artist and album names alone. -/
theorem c2_counterexample :
    (toMediaFile (bytes "/d1")
        ⟨bytes "t", bytes "a", bytes "The Wall", bytes "Pink Floyd", false,
          bytes "/d1/f1.mp3"⟩).artistID ≠
      (toMediaFile (bytes "/d2")
        ⟨bytes "t", bytes "b", bytes "the wall", bytes "PINK FLOYD", true,
          bytes "/d2/f2.mp3"⟩).artistID ∧
    (toMediaFile (bytes "/d1")
        ⟨bytes "t", bytes "a", bytes "The Wall", bytes "Pink Floyd", false,
          bytes "/d1/f1.mp3"⟩).albumID ≠
      (toMediaFile (bytes "/d2")
        ⟨bytes "t", bytes "b", bytes "the wall", bytes "PINK FLOYD", true,
          bytes "/d2/f2.mp3"⟩).albumID := by
  decide

/-- C2 (amended): for two non-compilation tracks at arbitrary file paths
whose album-artist tags equal "Pink Floyd" and album tags equal "The Wall"
up to letter case, `toMediaFile` assigns both the same albumID and the same
albumArtistID: these identifiers are functions of the lower-cased resolved
names only, independent of file location. -/
theorem c2_name_based_merge (root1 root2 : List Nat) (md1 md2 : Metadata)
    (hc1 : md1.compilation = false) (hc2 : md2.compilation = false)
    (haa1 : toLowerBytes md1.albumArtist = bytes "pink floyd")
    (haa2 : toLowerBytes md2.albumArtist = bytes "pink floyd")
    (hal1 : toLowerBytes md1.album = bytes "the wall")
    (hal2 : toLowerBytes md2.album = bytes "the wall") :
    (toMediaFile root1 md1).albumID = (toMediaFile root2 md2).albumID ∧
    (toMediaFile root1 md1).albumArtistID = (toMediaFile root2 md2).albumArtistID := by
  have ne1 : md1.albumArtist ≠ [] := toLowerBytes_ne_nil haa1 (by decide)
  have ne2 : md2.albumArtist ≠ [] := toLowerBytes_ne_nil haa2 (by decide)
  have na1 : md1.album ≠ [] := toLowerBytes_ne_nil hal1 (by decide)
  have na2 : md2.album ≠ [] := toLowerBytes_ne_nil hal2 (by decide)
  have m1 : mapAlbumArtistName md1 = md1.albumArtist := by
    simp [mapAlbumArtistName, hc1, ne1]
  have m2 : mapAlbumArtistName md2 = md2.albumArtist := by
    simp [mapAlbumArtistName, hc2, ne2]
  have a1 : mapAlbumName md1 = md1.album := by simp [mapAlbumName, na1]
  have a2 : mapAlbumName md2 = md2.album := by simp [mapAlbumName, na2]
  constructor
  · show albumID md1 = albumID md2
    rw [albumID, albumID, m1, m2, a1, a2, toLowerBytes_append, toLowerBytes_append,
      toLowerBytes_append, toLowerBytes_append, haa1, haa2, hal1, hal2]
  · show albumArtistID md1 = albumArtistID md2
    rw [albumArtistID, albumArtistID, m1, m2, haa1, haa2]

/-- Witness for C2 (amended): concrete tracks in different directories, case
variants of the names, different artist tags. -/
theorem c2_witness :
    (⟨bytes "t1", bytes "David Gilmour", bytes "The Wall", bytes "Pink Floyd",
        false, bytes "/d1/f1.mp3"⟩ : Metadata).compilation = false ∧
    toLowerBytes (bytes "PINK FLOYD") = bytes "pink floyd" ∧
    toLowerBytes (bytes "the wall") = bytes "the wall" ∧
    ((toMediaFile (bytes "/d1")
        ⟨bytes "t1", bytes "David Gilmour", bytes "The Wall", bytes "Pink Floyd",
          false, bytes "/d1/f1.mp3"⟩).albumID =
      (toMediaFile (bytes "/d2")
        ⟨bytes "t2", bytes "Roger Waters", bytes "the wall", bytes "PINK FLOYD",
          false, bytes "/d2/f2.mp3"⟩).albumID ∧
    (toMediaFile (bytes "/d1")
        ⟨bytes "t1", bytes "David Gilmour", bytes "The Wall", bytes "Pink Floyd",
          false, bytes "/d1/f1.mp3"⟩).albumArtistID =
      (toMediaFile (bytes "/d2")
        ⟨bytes "t2", bytes "Roger Waters", bytes "the wall", bytes "PINK FLOYD",
          false, bytes "/d2/f2.mp3"⟩).albumArtistID) :=
  ⟨rfl, by decide, by decide,
    c2_name_based_merge (bytes "/d1") (bytes "/d2") _ _ rfl rfl
      (by decide) (by decide) (by decide) (by decide)⟩

theorem breakUpFuel_chunk_le {α : Type} (n : Nat) :
    ∀ (fuel : Nat) (l : List α), ∀ ch ∈ breakUpFuel fuel l (n + 1), ch.length ≤ n + 1 := by
  intro fuel
  induction fuel with
  | zero => intro l ch hch; cases hch
  | succ fuel ih =>
    intro l ch hch
    match l with
    | [] => cases hch
    | c :: cs =>
      simp only [breakUpFuel, List.mem_cons] at hch
      rcases hch with rfl | hch
      · simp only [List.length_take]
        exact Nat.min_le_left _ _
      · exact ih _ ch hch

theorem breakUpFuel_flatten {α : Type} (n : Nat) :
    ∀ (fuel : Nat) (l : List α), l.length ≤ fuel →
      (breakUpFuel fuel l (n + 1)).flatten = l := by
  intro fuel
  induction fuel with
  | zero =>
    intro l hl
    have : l = [] := List.length_eq_zero.mp (Nat.le_zero.mp hl)
    subst this
    rfl
  | succ fuel ih =>
    intro l hl
    match l with
    | [] => rfl
    | c :: cs =>
      simp only [breakUpFuel, List.flatten_cons]
      rw [ih ((c :: cs).drop (n + 1))
        (by simp only [List.length_drop, List.length_cons] at hl ⊢; omega)]
      exact List.take_append_drop _ _

theorem refreshLoop_append {σ ε : Type} (f : List (List Nat) → σ → σ × Option ε)
    (pre rest : List (List (List Nat))) (s s1 : σ)
    (hpre : refreshLoop f pre s = (s1, none)) :
    refreshLoop f (pre ++ rest) s = refreshLoop f rest s1 := by
  induction pre generalizing s with
  | nil =>
    simp only [refreshLoop] at hpre
    cases hpre
    rfl
  | cons c cs ih =>
    simp only [refreshLoop, List.cons_append] at hpre ⊢
    cases hfc : f c s with
    | mk t oe =>
      rw [hfc] at hpre
      cases oe with
      | some e => simp at hpre
      | none => exact ih _ hpre

/-- C7: `Refresh` cuts the identifier list into chunks of at most 100
covering all of it; when the per-chunk refresh fails on some chunk, the
error is returned at once, the store retains exactly the writes of the
already-processed chunks (plus the failing chunk's own), and the remaining
chunks are never processed. -/
theorem c7_chunked_refresh_aborts {σ ε : Type}
    (f : List (List Nat) → σ → σ × Option ε) (ids : List (List Nat))
    (s s1 s2 : σ) (e : ε) (pre post : List (List (List Nat))) (c : List (List Nat))
    (hsplit : breakUpSlice ids 100 = pre ++ c :: post)
    (hpre : refreshLoop f pre s = (s1, none))
    (hfail : f c s1 = (s2, some e)) :
    (∀ ch ∈ breakUpSlice ids 100, ch.length ≤ 100) ∧
    (breakUpSlice ids 100).flatten = ids ∧
    Refresh f ids s = (s2, some e) := by
  refine ⟨fun ch hch => breakUpFuel_chunk_le 99 _ ids ch hch,
    breakUpFuel_flatten 99 _ ids (Nat.le_refl _), ?_⟩
  rw [Refresh, hsplit, refreshLoop_append f pre (c :: post) s s1 hpre]
  simp only [refreshLoop]
  rw [hfail]

set_option maxRecDepth 40000 in
/-- Witness for C7: 150 identifiers split into a chunk of 100 and a chunk of
50; the transition counts processed chunks and fails on the second. -/
theorem c7_witness :
    breakUpSlice (List.replicate 150 ([65] : List Nat)) 100 =
      [List.replicate 100 ([65] : List Nat)] ++
        List.replicate 50 ([65] : List Nat) :: [] ∧
    refreshLoop (fun _ s => (s + 1, if s = 1 then some 9 else none))
      [List.replicate 100 ([65] : List Nat)] 0 = (1, none) ∧
    (fun (_ : List (List Nat)) (s : Nat) => (s + 1, if s = 1 then some 9 else none))
      (List.replicate 50 ([65] : List Nat)) 1 = (2, some 9) ∧
    ((∀ ch ∈ breakUpSlice (List.replicate 150 ([65] : List Nat)) 100,
        ch.length ≤ 100) ∧
      (breakUpSlice (List.replicate 150 ([65] : List Nat)) 100).flatten =
        List.replicate 150 ([65] : List Nat) ∧
      Refresh (fun _ s => (s + 1, if s = 1 then some 9 else none))
        (List.replicate 150 ([65] : List Nat)) 0 = (2, some 9)) :=
  ⟨by decide, by decide, by decide,
    c7_chunked_refresh_aborts (fun _ s => (s + 1, if s = 1 then some 9 else none))
      (List.replicate 150 ([65] : List Nat)) 0 1 2 9
      [List.replicate 100 ([65] : List Nat)] []
      (List.replicate 50 ([65] : List Nat))
      (by decide) (by decide) (by decide)⟩

theorem unhex_hexDigitUpper {x : Nat} (h : x < 16) :
    unhex (hexDigitUpper x) = some x := by
  interval_cases x <;> decide

theorem hexDigitUpper_ne_colon_semi (x : Nat) :
    hexDigitUpper x ≠ 58 ∧ hexDigitUpper x ≠ 59 := by
  refine ⟨?_, ?_⟩ <;> (unfold hexDigitUpper; split <;> omega)

theorem isUnreservedQuery_bounds {c : Nat} (h : isUnreservedQuery c = true) :
    (48 ≤ c ∧ c ≤ 57) ∨ (65 ≤ c ∧ c ≤ 90) ∨ (97 ≤ c ∧ c ≤ 122) ∨
      c = 45 ∨ c = 95 ∨ c = 46 ∨ c = 126 := by
  simp only [isUnreservedQuery, Bool.or_eq_true, Bool.and_eq_true,
    decide_eq_true_eq] at h
  tauto

theorem queryEscape_ne_sep (s : List Nat) :
    ∀ c ∈ queryEscape s, c ≠ 58 ∧ c ≠ 59 := by
  intro c hc
  simp only [queryEscape, List.mem_flatten, List.mem_map] at hc
  obtain ⟨piece, ⟨b, _hb, rfl⟩, hcp⟩ := hc
  by_cases h1 : isUnreservedQuery b
  · rw [if_pos h1] at hcp
    simp only [List.mem_singleton] at hcp
    subst hcp
    have := isUnreservedQuery_bounds h1
    omega
  · rw [if_neg h1] at hcp
    by_cases h2 : b = 32
    · rw [if_pos h2] at hcp
      simp only [List.mem_singleton] at hcp
      subst hcp
      exact ⟨by decide, by decide⟩
    · rw [if_neg h2] at hcp
      simp only [List.mem_cons, List.mem_singleton, List.not_mem_nil, or_false] at hcp
      rcases hcp with rfl | rfl | rfl
      · exact ⟨by decide, by decide⟩
      · exact hexDigitUpper_ne_colon_semi _
      · exact hexDigitUpper_ne_colon_semi _

theorem queryUnescapeCore_cons_plain {c : Nat} (h37 : c ≠ 37) (h43 : c ≠ 43)
    (rest : List Nat) :
    queryUnescapeCore (c :: rest) = (queryUnescapeCore rest).map (c :: ·) := by
  conv_lhs => unfold queryUnescapeCore
  rw [if_neg h37, if_neg h43]

theorem queryUnescapeCore_cons_plus (rest : List Nat) :
    queryUnescapeCore (43 :: rest) = (queryUnescapeCore rest).map ((32 : Nat) :: ·) := by
  conv_lhs => unfold queryUnescapeCore
  norm_num

theorem queryUnescapeCore_cons_escape {h l hi lo : Nat} (hh : unhex h = some hi)
    (hl : unhex l = some lo) (rest : List Nat) :
    queryUnescapeCore (37 :: h :: l :: rest) =
      (queryUnescapeCore rest).map ((16 * hi + lo) :: ·) := by
  have e : queryUnescapeCore (37 :: h :: l :: rest) =
      match unhex h, unhex l with
      | some hi, some lo => (queryUnescapeCore rest).map ((16 * hi + lo) :: ·)
      | _, _ => none := rfl
  rw [e, hh, hl]

theorem queryUnescape_queryEscape (s : List Nat) (h : ∀ b ∈ s, b < 256) :
    queryUnescapeCore (queryEscape s) = some s := by
  induction s with
  | nil => rfl
  | cons c r ih =>
    have hc : c < 256 := h c (List.mem_cons_self _ _)
    have ihr := ih fun b hb => h b (List.mem_cons_of_mem _ hb)
    have hq : queryEscape (c :: r) =
        (if isUnreservedQuery c then [c]
          else if c = 32 then [43]
          else [37, hexDigitUpper (c / 16 % 16), hexDigitUpper (c % 16)]) ++
          queryEscape r := by
      simp [queryEscape]
    rw [hq]
    by_cases h1 : isUnreservedQuery c
    · rw [if_pos h1]
      have hb := isUnreservedQuery_bounds h1
      have h37 : c ≠ 37 := by omega
      have h43 : c ≠ 43 := by omega
      rw [List.cons_append, List.nil_append,
        queryUnescapeCore_cons_plain h37 h43, ihr]
      rfl
    · rw [if_neg h1]
      by_cases h2 : c = 32
      · subst h2
        rw [if_pos rfl, List.cons_append, List.nil_append,
          queryUnescapeCore_cons_plus, ihr]
        rfl
      · rw [if_neg h2]
        have e1 := unhex_hexDigitUpper (x := c / 16 % 16) (Nat.mod_lt _ (by omega))
        have e2 := unhex_hexDigitUpper (x := c % 16) (Nat.mod_lt _ (by omega))
        rw [List.cons_append, List.cons_append, List.cons_append, List.nil_append,
          queryUnescapeCore_cons_escape e1 e2, ihr]
        have : 16 * (c / 16 % 16) + c % 16 = c := by omega
        rw [this]
        rfl

theorem splitOnByte_append {sep : Nat} {a : List Nat} (b : List Nat) (h : sep ∉ a) :
    splitOnByte sep (a ++ sep :: b) = a :: splitOnByte sep b := by
  induction a with
  | nil =>
    rw [List.nil_append, splitOnByte]
    simp [splitOnByteAux, splitOnByte]
  | cons c a' ih =>
    have hc : c ≠ sep := fun hcs => h (hcs ▸ List.mem_cons_self _ _)
    have ih' := ih fun hm => h (List.mem_cons_of_mem _ hm)
    rw [splitOnByte] at ih'
    injection ih' with h1 h2
    rw [List.cons_append, splitOnByte]
    simp only [splitOnByteAux, if_neg hc]
    rw [h1, h2]

theorem splitOnByte_no_sep {sep : Nat} {l : List Nat} (h : sep ∉ l) :
    splitOnByte sep l = [l] := by
  induction l with
  | nil => rfl
  | cons c r ih =>
    have hc : c ≠ sep := fun hcs => h (hcs ▸ List.mem_cons_self _ _)
    have ih' := ih fun hm => h (List.mem_cons_of_mem _ hm)
    rw [splitOnByte] at ih'
    injection ih' with h1 h2
    rw [splitOnByte]
    simp only [splitOnByteAux, if_neg hc]
    rw [h1, h2]

theorem splitOnByte_joinWith {sep : Nat} :
    ∀ pieces : List (List Nat), pieces ≠ [] → (∀ p ∈ pieces, sep ∉ p) →
      splitOnByte sep (joinWith sep pieces) = pieces
  | [], hne, _ => absurd rfl hne
  | [p], _, hp => by
    show splitOnByte sep p = [p]
    exact splitOnByte_no_sep (hp p (List.mem_singleton.mpr rfl))
  | p :: q :: rest, _, hp => by
    show splitOnByte sep (p ++ sep :: joinWith sep (q :: rest)) = _
    rw [splitOnByte_append _ (hp p (List.mem_cons_self _ _)),
      splitOnByte_joinWith (q :: rest) (List.cons_ne_nil q rest)
        (fun x hx => hp x (List.mem_cons_of_mem _ hx))]

theorem decodeEntry_wellformed {i esc : List Nat} (hi : (58 : Nat) ∉ i)
    (hesc : (58 : Nat) ∉ esc) :
    decodeEntry (i ++ 58 :: esc) = some ⟨i, queryUnescapeLenient esc⟩ := by
  rw [decodeEntry, splitOnByte_append esc hi, splitOnByte_no_sep hesc]

theorem filterMap_map_some {α β : Type} (g : α → β) (f : β → Option α) :
    ∀ l : List α, (∀ a ∈ l, f (g a) = some a) → (l.map g).filterMap f = l := by
  intro l
  induction l with
  | nil => intro _; rfl
  | cons a r ih =>
    intro h
    simp only [List.map_cons, List.filterMap_cons, h a (List.mem_cons_self _ _)]
    rw [ih fun x hx => h x (List.mem_cons_of_mem _ hx)]

set_option maxRecDepth 4000 in
/-- Counterexample to C4 as stated: the round trip is not the identity on
every similar-artists list — an identifier containing a colon makes the
stored entry split into three fields and be discarded, and an identifier
containing a semicolon makes the stored string split into two different
entries. -/
theorem c4_counterexample :
    toModelSimilar (fromModelSimilar [⟨bytes "a:b", bytes "x"⟩]) = [] ∧
    toModelSimilar (fromModelSimilar [⟨bytes "a:b", bytes "x"⟩]) ≠
      [⟨bytes "a:b", bytes "x"⟩] ∧
    toModelSimilar (fromModelSimilar [⟨bytes "a;b", bytes "x"⟩]) =
      [⟨bytes "b", bytes "x"⟩] ∧
    toModelSimilar (fromModelSimilar [⟨bytes "a;b", bytes "x"⟩]) ≠
      [⟨bytes "a;b", bytes "x"⟩] := by
  decide

/-- C4 (amended): encoding a similar-artists list with `fromModel` and then
decoding with `toModel` reproduces the list exactly — same identifiers and
names in the same order — for every list whose identifiers contain neither
`:` nor `;` (names are arbitrary byte strings; in particular a slash
survives the percent-encode/decode round trip). -/
theorem c4_roundtrip (sa : List SimilarArtist)
    (hid : ∀ p ∈ sa, (58 : Nat) ∉ p.id ∧ (59 : Nat) ∉ p.id)
    (hname : ∀ p ∈ sa, ∀ b ∈ p.name, b < 256) :
    toModelSimilar (fromModelSimilar sa) = sa := by
  cases sa with
  | nil => rfl
  | cons p rest =>
    rw [toModelSimilar, fromModelSimilar,
      splitOnByte_joinWith _ (by simp) ?pieces]
    case pieces =>
      intro piece hpiece
      simp only [List.mem_map] at hpiece
      obtain ⟨q, hq, rfl⟩ := hpiece
      intro hmem
      rcases List.mem_append.mp hmem with h59 | h59
      · exact (hid q hq).2 h59
      · rcases List.mem_cons.mp h59 with h58 | h59
        · cases h58
        · exact ((queryEscape_ne_sep _ _ h59).2 rfl).elim
    refine filterMap_map_some _ _ _ fun q hq => ?_
    rw [decodeEntry_wellformed (hid q hq).1
      (fun h58 => (queryEscape_ne_sep _ _ h58).1 rfl),
      queryUnescapeLenient, queryUnescape_queryEscape _ (hname q hq)]
    rfl

theorem dropWhile_mem_cons {sep : Nat} {e : List Nat} (h : sep ∈ e) :
    e.dropWhile (fun c => c ≠ sep) =
      sep :: (e.dropWhile (fun c => c ≠ sep)).drop 1 := by
  induction e with
  | nil => cases h
  | cons c r ih =>
    by_cases hc : c = sep
    · subst hc
      simp [List.dropWhile_cons]
    · have hr : sep ∈ r := by
        rcases List.mem_cons.mp h with h1 | h1
        · exact absurd h1.symm hc
        · exact h1
      simp only [List.dropWhile_cons, decide_eq_true_eq, if_pos hc]
      exact ih hr

theorem takeWhile_not_mem {sep : Nat} (e : List Nat) :
    sep ∉ e.takeWhile (fun c => c ≠ sep) := by
  intro hx
  have h2 := List.mem_takeWhile_imp hx
  simp at h2

theorem splitOnByte_mem_shape {sep : Nat} {l : List Nat} (h : sep ∈ l) :
    ∃ x y ys, splitOnByte sep l = x :: y :: ys := by
  have hd : l.dropWhile (fun c => c ≠ sep) =
      sep :: (l.dropWhile (fun c => c ≠ sep)).drop 1 := dropWhile_mem_cons h
  have hsplit : l = l.takeWhile (fun c => c ≠ sep) ++
      sep :: (l.dropWhile (fun c => c ≠ sep)).drop 1 := by
    conv_lhs =>
      rw [← List.takeWhile_append_dropWhile (p := fun c => c ≠ sep) (l := l), hd]
  rw [hsplit, splitOnByte_append _ (takeWhile_not_mem l), splitOnByte]
  exact ⟨_, _, _, rfl⟩

theorem decodeEntry_eq_spec (e : List Nat) : decodeEntry e = specDecodeEntry e := by
  by_cases h58 : (58 : Nat) ∈ e
  · have hd : e.dropWhile (fun c => c ≠ 58) =
        58 :: (e.dropWhile (fun c => c ≠ 58)).drop 1 := dropWhile_mem_cons h58
    set rest := (e.dropWhile (fun c => c ≠ 58)).drop 1 with hrest
    have hsplit : e = e.takeWhile (fun c => c ≠ 58) ++ 58 :: rest := by
      conv_lhs => rw [← List.takeWhile_append_dropWhile (p := fun c => c ≠ 58) (l := e)]
      rw [hd]
    have htw : (58 : Nat) ∉ e.takeWhile (fun c => c ≠ 58) := takeWhile_not_mem e
    have hsp : splitOnByte 58 e =
        e.takeWhile (fun c => c ≠ 58) :: splitOnByte 58 rest := by
      conv_lhs => rw [hsplit]
      exact splitOnByte_append rest htw
    have hcount : e.count 58 = rest.count 58 + 1 := by
      conv_lhs => rw [hsplit]
      rw [List.count_append, List.count_eq_zero.mpr htw]
      simp [List.count_cons]
    by_cases hr : (58 : Nat) ∈ rest
    · have hcr : 0 < rest.count 58 := List.count_pos_iff.mpr hr
      obtain ⟨x, y, ys, hxy⟩ := splitOnByte_mem_shape hr
      rw [decodeEntry, hsp, hxy, specDecodeEntry, if_neg (by omega)]
    · have hcr : rest.count 58 = 0 := List.count_eq_zero.mpr hr
      rw [decodeEntry, hsp, splitOnByte_no_sep hr, specDecodeEntry,
        if_pos (by omega)]
  · have hc : e.count 58 = 0 := List.count_eq_zero.mpr h58
    rw [decodeEntry, splitOnByte_no_sep h58, specDecodeEntry, if_neg (by omega)]

/-- Counterexample to C8 as stated: the code splits each entry on every
colon and keeps it only when that yields exactly two fields, so the entry
"a:b:c" is discarded — whereas splitting on the first colon, as the claim
describes, would keep it as identifier "a" and name "b:c". -/
theorem c8_counterexample :
    toModelSimilar (bytes "a:b:c") = [] ∧
    claimToModelSimilar (bytes "a:b:c") = [⟨bytes "a", bytes "b:c"⟩] ∧
    toModelSimilar (bytes "a:b:c") ≠ claimToModelSimilar (bytes "a:b:c") := by
  decide

/-- C8 (amended): decoding a stored similar-artists string is total over
arbitrary inputs: the string is split on `;`, and each entry is kept exactly
when it contains exactly one `:` — the identifier being the part before the
colon and the name the percent-decoded part after it (empty when decoding
fails) — while every other entry is individually discarded. -/
theorem c8_decode_totality (stored : List Nat) :
    toModelSimilar stored = specToModelSimilar stored := by
  rw [toModelSimilar, specToModelSimilar,
    show decodeEntry = specDecodeEntry from funext decodeEntry_eq_spec]

/-- Witness for C4 (amended) at the claim's own instance: the one-element
list with identifier "a1" and name "AC/DC". -/
theorem c4_witness :
    (∀ p ∈ [(⟨bytes "a1", bytes "AC/DC"⟩ : SimilarArtist)],
      (58 : Nat) ∉ p.id ∧ (59 : Nat) ∉ p.id) ∧
    (∀ p ∈ [(⟨bytes "a1", bytes "AC/DC"⟩ : SimilarArtist)],
      ∀ b ∈ p.name, b < 256) ∧
    toModelSimilar (fromModelSimilar [⟨bytes "a1", bytes "AC/DC"⟩]) =
      [⟨bytes "a1", bytes "AC/DC"⟩] :=
  ⟨by decide, by decide, c4_roundtrip _ (by decide) (by decide)⟩

theorem upsertIndex_mem_new (key : List Nat) (a : Artist) :
    ∀ acc : List ArtistIndex,
      ∃ idx ∈ upsertIndex key a acc, idx.id = key ∧ a ∈ idx.artists := by
  intro acc
  induction acc with
  | nil =>
    exact ⟨⟨key, [a]⟩, List.mem_singleton.mpr rfl, rfl, List.mem_singleton.mpr rfl⟩
  | cons i rest ih =>
    by_cases hik : i.id = key
    · refine ⟨⟨i.id, i.artists ++ [a]⟩, ?_, hik, ?_⟩
      · rw [upsertIndex, if_pos hik]
        exact List.mem_cons_self _ _
      · exact List.mem_append.mpr (Or.inr (List.mem_singleton.mpr rfl))
    · obtain ⟨idx, hmem, hkey, hart⟩ := ih
      refine ⟨idx, ?_, hkey, hart⟩
      rw [upsertIndex, if_neg hik]
      exact List.mem_cons_of_mem _ hmem

theorem upsertIndex_mem_mono (key : List Nat) (a x : Artist) :
    ∀ (acc : List ArtistIndex) (idx : ArtistIndex), idx ∈ acc → x ∈ idx.artists →
      ∃ idx' ∈ upsertIndex key a acc, idx'.id = idx.id ∧ x ∈ idx'.artists := by
  intro acc
  induction acc with
  | nil => intro idx h _; cases h
  | cons i rest ih =>
    intro idx hmem hart
    by_cases hik : i.id = key
    · rcases List.mem_cons.mp hmem with rfl | hmem'
      · refine ⟨⟨idx.id, idx.artists ++ [a]⟩, ?_, rfl, ?_⟩
        · rw [upsertIndex, if_pos hik]
          exact List.mem_cons_self _ _
        · exact List.mem_append.mpr (Or.inl hart)
      · refine ⟨idx, ?_, rfl, hart⟩
        rw [upsertIndex, if_pos hik]
        exact List.mem_cons_of_mem _ hmem'
    · rcases List.mem_cons.mp hmem with rfl | hmem'
      · refine ⟨idx, ?_, rfl, hart⟩
        rw [upsertIndex, if_neg hik]
        exact List.mem_cons_self _ _
      · obtain ⟨idx', hm', hk', ha'⟩ := ih idx hmem' hart
        refine ⟨idx', ?_, hk', ha'⟩
        rw [upsertIndex, if_neg hik]
        exact List.mem_cons_of_mem _ hm'

theorem foldIndex_mem_mono (groups : List (List Nat × List Nat)) (x : Artist)
    (k : List Nat) :
    ∀ (rows : List Artist) (acc : List ArtistIndex),
      (∃ idx ∈ acc, idx.id = k ∧ x ∈ idx.artists) →
      ∃ idx ∈ rows.foldl (fun acc a => upsertIndex (getIndexKey groups a) a acc) acc,
        idx.id = k ∧ x ∈ idx.artists := by
  intro rows
  induction rows with
  | nil => intro acc h; exact h
  | cons r rest ih =>
    intro acc h
    obtain ⟨idx, hmem, hkey, hart⟩ := h
    obtain ⟨idx', hm', hk', ha'⟩ :=
      upsertIndex_mem_mono (getIndexKey groups r) r x acc idx hmem hart
    exact ih _ ⟨idx', hm', hk'.trans hkey, ha'⟩

theorem foldIndex_mem (groups : List (List Nat × List Nat)) (a : Artist) :
    ∀ (rows : List Artist) (acc : List ArtistIndex), a ∈ rows →
      ∃ idx ∈ rows.foldl (fun acc a => upsertIndex (getIndexKey groups a) a acc) acc,
        idx.id = getIndexKey groups a ∧ a ∈ idx.artists := by
  intro rows
  induction rows with
  | nil => intro acc h; cases h
  | cons r rest ih =>
    intro acc h
    rcases List.mem_cons.mp h with rfl | hmem
    · obtain ⟨idx, hm, hk, ha⟩ := upsertIndex_mem_new (getIndexKey groups a) a acc
      exact foldIndex_mem_mono groups a _ rest _ ⟨idx, hm, hk, ha⟩
    · exact ih _ hmem

theorem mem_insertSortedIdx (x y : ArtistIndex) :
    ∀ l : List ArtistIndex, x ∈ insertSortedIdx y l ↔ x = y ∨ x ∈ l := by
  intro l
  induction l with
  | nil => simp [insertSortedIdx]
  | cons z zs ih =>
    rw [insertSortedIdx]
    by_cases hb : bytesLe y.id z.id
    · rw [if_pos hb]
      simp [List.mem_cons]
    · rw [if_neg hb]
      simp only [List.mem_cons, ih]
      tauto

theorem mem_sortIdx (x : ArtistIndex) :
    ∀ l : List ArtistIndex, x ∈ sortIdx l ↔ x ∈ l := by
  intro l
  induction l with
  | nil => simp [sortIdx]
  | cons z zs ih =>
    rw [sortIdx, mem_insertSortedIdx]
    simp only [List.mem_cons, ih]

theorem find?_eq_of_perm_unique {α : Type} (p : α → Bool) {g1 g2 : List α}
    (hperm : List.Perm g1 g2)
    (huniq : ∀ x ∈ g1, ∀ y ∈ g1, p x = true → p y = true → x = y) :
    g1.find? p = g2.find? p := by
  cases h1 : g1.find? p with
  | none =>
    rw [List.find?_eq_none] at h1
    symm
    rw [List.find?_eq_none]
    intro x hx
    exact h1 x (hperm.mem_iff.mpr hx)
  | some kv =>
    have hp : p kv = true := List.find?_some h1
    have hm1 : kv ∈ g1 := List.mem_of_find?_eq_some h1
    cases h2 : g2.find? p with
    | none =>
      rw [List.find?_eq_none] at h2
      exact absurd hp (h2 kv (hperm.mem_iff.mp hm1))
    | some kv2 =>
      have hp2 : p kv2 = true := List.find?_some h2
      have hm2 : kv2 ∈ g1 := hperm.mem_iff.mpr (List.mem_of_find?_eq_some h2)
      rw [huniq kv2 hm2 kv hm1 hp2 hp]

theorem getIndexKey_eq_of_perm (a : Artist) {g1 g2 : List (List Nat × List Nat)}
    (hperm : List.Perm g1 g2)
    (huniq : ∀ kv1 ∈ g1, ∀ kv2 ∈ g1,
      groupMatches a kv1 = true → groupMatches a kv2 = true → kv1 = kv2) :
    getIndexKey g1 a = getIndexKey g2 a := by
  unfold getIndexKey
  rw [find?_eq_of_perm_unique (groupMatches a) hperm huniq]

theorem foldIndex_congr (g1 g2 : List (List Nat × List Nat)) :
    ∀ rows : List Artist, (∀ x ∈ rows, getIndexKey g1 x = getIndexKey g2 x) →
      ∀ acc : List ArtistIndex,
        rows.foldl (fun acc x => upsertIndex (getIndexKey g1 x) x acc) acc =
          rows.foldl (fun acc x => upsertIndex (getIndexKey g2 x) x acc) acc := by
  intro rows
  induction rows with
  | nil => intro _ _; rfl
  | cons r rest ih =>
    intro h acc
    simp only [List.foldl_cons]
    rw [h r (List.mem_cons_self _ _)]
    exact ih (fun x hx => h x (List.mem_cons_of_mem _ hx)) _

set_option maxRecDepth 4000 in
/-- Counterexample to C5 as stated: the configured groups live in a Go map
whose iteration order is unspecified, so two invocations over the same
stored row and the same configured entries — here the overlapping prefixes
"T" and "The", iterated in the two possible orders — can assign the artist
"Theodore" to different buckets, producing different `GetIndex` output.
Repeated invocations are therefore not guaranteed identical output, and
there is no well-defined "first configured group prefix". -/
theorem c5_counterexample :
    List.Perm
      [((bytes "T", bytes "T") : List Nat × List Nat), (bytes "The", bytes "X")]
      [((bytes "The", bytes "X") : List Nat × List Nat), (bytes "T", bytes "T")] ∧
    getIndex [(bytes "T", bytes "T"), (bytes "The", bytes "X")]
        [⟨bytes "1", bytes "Theodore"⟩] ≠
      getIndex [(bytes "The", bytes "X"), (bytes "T", bytes "T")]
        [⟨bytes "1", bytes "Theodore"⟩] :=
  ⟨List.Perm.swap _ _ _, by decide⟩

/-- C5 (amended): `GetIndex` is a pure recomputation from the stored artist
rows and the configured group table, and — provided no artist's normalized
name is matched by two different configured entries, as with the default
disjoint single-letter groups — its output is independent of the group
map's unspecified iteration order, so repeated invocations produce
identical output; each stored artist lands in the bucket keyed by the
unique matching prefix's configured value (matched case-insensitively
against the artist's article-stripped, lower-cased name), and by the fixed
catch-all key "#" when no prefix matches.  With overlapping prefixes the
bucket depends on the iteration order (see the counterexample). -/
theorem c5_get_index_deterministic (g1 g2 : List (List Nat × List Nat))
    (rows : List Artist) (a : Artist)
    (hperm : List.Perm g1 g2)
    (huniq : ∀ x ∈ rows, ∀ kv1 ∈ g1, ∀ kv2 ∈ g1,
      groupMatches x kv1 = true → groupMatches x kv2 = true → kv1 = kv2)
    (ha : a ∈ rows) :
    getIndex g1 rows = getIndex g2 rows ∧
    (∃ idx ∈ getIndex g1 rows, idx.id = getIndexKey g1 a ∧ a ∈ idx.artists) ∧
    (∀ kv ∈ g1, groupMatches a kv = true → getIndexKey g1 a = kv.2) ∧
    ((∀ kv ∈ g1, groupMatches a kv = false) → getIndexKey g1 a = [35]) := by
  refine ⟨?_, ?_, ?_, ?_⟩
  · unfold getIndex
    rw [foldIndex_congr g1 g2 rows
      (fun x hx => getIndexKey_eq_of_perm x hperm (huniq x hx)) []]
  · obtain ⟨idx, hm, hk, hart⟩ := foldIndex_mem g1 a rows [] ha
    exact ⟨idx, (mem_sortIdx idx _).mpr hm, hk, hart⟩
  · intro kv hkv hmatch
    cases hf : g1.find? (groupMatches a) with
    | none =>
      rw [List.find?_eq_none] at hf
      exact absurd hmatch (hf kv hkv)
    | some kv' =>
      have hkv' : kv' = kv :=
        huniq a ha kv' (List.mem_of_find?_eq_some hf) kv hkv
          (List.find?_some hf) hmatch
      unfold getIndexKey
      rw [hf, hkv']
  · intro hnone
    have hf : g1.find? (groupMatches a) = none :=
      List.find?_eq_none.mpr fun x hx => by rw [hnone x hx]; exact Bool.false_ne_true
    unfold getIndexKey
    rw [hf]

set_option maxRecDepth 4000 in
/-- Witness for C5 (amended): the single-letter groups in the standard
order and in reverse order are permutations with at most one prefix
matching "The Beatles", so the index output coincides and the artist sits
in its `getIndexKey` bucket. -/
theorem c5_witness :
    List.Perm letterIndexGroups letterIndexGroups.reverse ∧
    (∀ x ∈ [(⟨bytes "1", bytes "The Beatles"⟩ : Artist)],
      ∀ kv1 ∈ letterIndexGroups, ∀ kv2 ∈ letterIndexGroups,
        groupMatches x kv1 = true → groupMatches x kv2 = true → kv1 = kv2) ∧
    (⟨bytes "1", bytes "The Beatles"⟩ : Artist) ∈
      [(⟨bytes "1", bytes "The Beatles"⟩ : Artist)] ∧
    (getIndex letterIndexGroups [(⟨bytes "1", bytes "The Beatles"⟩ : Artist)] =
        getIndex letterIndexGroups.reverse
          [(⟨bytes "1", bytes "The Beatles"⟩ : Artist)] ∧
      ∃ idx ∈ getIndex letterIndexGroups
          [(⟨bytes "1", bytes "The Beatles"⟩ : Artist)],
        idx.id = getIndexKey letterIndexGroups ⟨bytes "1", bytes "The Beatles"⟩ ∧
          (⟨bytes "1", bytes "The Beatles"⟩ : Artist) ∈ idx.artists) :=
  ⟨(List.reverse_perm letterIndexGroups).symm, by decide, List.mem_cons_self _ _,
    (fun h => ⟨h.1, h.2.1⟩)
      (c5_get_index_deterministic letterIndexGroups letterIndexGroups.reverse
        [⟨bytes "1", bytes "The Beatles"⟩] ⟨bytes "1", bytes "The Beatles"⟩
        (List.reverse_perm letterIndexGroups).symm (by decide)
        (List.mem_cons_self _ _))⟩

end Navidrome

set_option maxRecDepth 10000 in
/-- Known-answer test pinning the MD5 embedding to the published digest of
"abc". -/
example : Navidrome.hexString (Navidrome.md5Sum (Navidrome.bytes "abc")) =
    Navidrome.bytes "900150983cd24fb0d6963f7d28e17f72" := by decide

open Navidrome in
/-- Known-answer test pinning the percent encoding: a slash escapes to
"%2F" in a query component and decodes back. -/
example : queryEscape (bytes "AC/DC") = bytes "AC%2FDC" ∧
    queryUnescapeCore (bytes "AC%2FDC") = some (bytes "AC/DC") := by decide

open Navidrome in
/-- Known-answer test pinning the chunking helper. -/
example : breakUpSlice [1, 2, 3, 4, 5] 2 = [[1, 2], [3, 4], [5]] := by decide
